import Mathlib

/-!
Shallow embedding of the `non_topologically_sorted_functions` dylint lint
(`src/examples/restriction/non_topologically_sorted_functions/src/lib.rs`).

The lint inspects the functions declared in one module, derives a set of
"must-come-before" constraints from call relationships, compares the
constraints against the actual declaration order, and reports violations.

Modelling conventions:
  * `LocalDefId` (an opaque resolved identity) is modelled as `Nat`;
    `Span` is likewise an opaque `Nat` token.
  * `def_path_str` (human-readable display name of an identity) is an
    arbitrary parameter `name : LocalDefId → String`.
  * A function body is modelled as the sequence, in HIR traversal order, of
    the resolution results of the direct call expressions it contains:
    `List (Option LocalDefId)` — `some d` for a call whose callee path
    resolves to the local definition `d`, `none` for a call that does not
    resolve to a local definition (foreign function, method, closure, ...).
  * `HashMap<LocalDefId, FnMeta>` is modelled as an association list with
    first-match `List.lookup`; insertion prepends, which gives the hash
    map's overwrite semantics for `lookup` (in a well-formed module every
    item has a distinct `LocalDefId`, so the two never differ anyway).
  * `HashSet<(LocalDefId, LocalDefId)>` is modelled as a duplicate-free
    list; `hsInsert` is idempotent insertion.  The hash set's iteration
    order is arbitrary, so `find_violations` takes the enumeration as a
    list argument and determinism with respect to that order is proved
    (claim on determinism) rather than assumed.
-/

namespace NonTopSorted

abbrev LocalDefId := Nat
abbrev Span := Nat

/-- Metadata recorded per function: zero-based declaration position within
the module (dense among functions only) and the source span of the item. -/
structure FnMeta where
  position_number : Nat
  span : Span
deriving DecidableEq

/-- A module item: either a function item (with its body, modelled as the
traversal-ordered list of resolved call targets) or any other item kind. -/
inductive ItemKind where
  | fn (body : List (Option LocalDefId))
  | other
deriving DecidableEq

/-- One item of the module's declaration list. -/
structure Item where
  def_id : LocalDefId
  span : Span
  kind : ItemKind
deriving DecidableEq

/-- `HashMap::contains_key` on the association-list model of the metadata
map. -/
def containsKey (m : List (LocalDefId × FnMeta)) (k : LocalDefId) : Bool :=
  (List.lookup k m).isSome

/-- State of the `Finder` visitor: the `seen` set and the discovery-ordered
`order` list of sibling callees. -/
structure Finder where
  seen : List LocalDefId
  order : List LocalDefId
deriving DecidableEq

/-- `Finder::visit_expr`, restricted to the one step that matters: handling
the resolution result of a single call expression.  A call resolving to a
local definition that is a key of `local_defs` and was not yet seen is
appended to `order` (and marked seen); everything else is ignored. -/
def visit_expr (local_defs : List (LocalDefId × FnMeta)) (f : Finder)
    (res : Option LocalDefId) : Finder :=
  match res with
  | some local_def_id =>
    if containsKey local_defs local_def_id ∧ local_def_id ∉ f.seen then
      { seen := local_def_id :: f.seen, order := f.order ++ [local_def_id] }
    else f
  | none => f

/-- `collect_callees_in_body`: walk the body (the list of resolved call
targets, in traversal order) with a fresh `Finder` and return its `order`. -/
def collect_callees_in_body (local_defs : List (LocalDefId × FnMeta))
    (body : List (Option LocalDefId)) : List LocalDefId :=
  (body.foldl (visit_expr local_defs) ⟨[], []⟩).order

/-- `find_caller_body`: scan the module's items for the first function item
whose identity is `caller_id` and return its body. -/
def find_caller_body : List Item → LocalDefId → Option (List (Option LocalDefId))
  | [], _ => none
  | item :: rest, caller_id =>
    match item.kind with
    | ItemKind.fn body =>
      if item.def_id = caller_id then some body else find_caller_body rest caller_id
    | ItemKind.other => find_caller_body rest caller_id

/-- The collection loop at the start of `check_mod`: scan the module's items,
record each function item's identity in declaration order together with its
metadata (position counter `idx` increments only at function items).
Returns `(def_order, functions)`.  Metadata entries are prepended so that a
first-match `List.lookup` sees the most recent insertion, mirroring
`HashMap::insert`. -/
def collect_scope : List Item → Nat → List LocalDefId × List (LocalDefId × FnMeta)
  | [], _ => ([], [])
  | item :: rest, idx =>
    match item.kind with
    | ItemKind.fn _ =>
      let r := collect_scope rest (idx + 1)
      (item.def_id :: r.1, (item.def_id, ⟨idx, item.span⟩) :: r.2)
    | ItemKind.other => collect_scope rest idx

/-- `HashSet::insert` on the duplicate-free-list model of the constraint
set: a no-op when the element is already present. -/
def hsInsert (p : LocalDefId × LocalDefId) (s : List (LocalDefId × LocalDefId)) :
    List (LocalDefId × LocalDefId) :=
  if p ∈ s then s else s ++ [p]

/-- `build_caller_callee_constraint`: for each callee in order, add the
`(caller, callee)` constraint unless the reversed constraint `(callee,
caller)` is already present (earlier constraints keep precedence). -/
def build_caller_callee_constraint (caller_id : LocalDefId)
    (callees : List LocalDefId) (must_come_before : List (LocalDefId × LocalDefId)) :
    List (LocalDefId × LocalDefId) :=
  callees.foldl
    (fun must callee_id =>
      if (callee_id, caller_id) ∈ must then must
      else hsInsert (caller_id, callee_id) must)
    must_come_before

/-- `build_multiple_precedence_rule`: for every pair of positions `i < j` in
the callee sequence, add `(callees[i], callees[j])` unless the reversed pair
already exists.  The double index loop of the source is expressed
structurally: the outer loop peels the head `a`, the inner loop folds over
the remaining suffix. -/
def build_multiple_precedence_rule :
    List LocalDefId → List (LocalDefId × LocalDefId) → List (LocalDefId × LocalDefId)
  | [], must => must
  | a :: rest, must =>
    build_multiple_precedence_rule rest
      (rest.foldl
        (fun m b => if (b, a) ∈ m then m else hsInsert (a, b) m)
        must)

/-- A detected violation, as in the source's `Violation` struct. -/
structure Violation where
  idx_first_fn : Nat
  idx_second_fn : Nat
  name_first_fn : String
  name_second_fn : String
  id_first_fn : LocalDefId
  fn_meta : FnMeta
deriving DecidableEq

/-- Rust's `usize::cmp`. -/
def cmpNat (a b : Nat) : Ordering :=
  if a < b then Ordering.lt else if a = b then Ordering.eq else Ordering.gt

/-- Rust's `str::cmp` (byte-lexicographic, which coincides with the
character-lexicographic order `String.lt` because UTF-8 preserves code-point
order). -/
def strCmp (a b : String) : Ordering :=
  if a < b then Ordering.lt else if a = b then Ordering.eq else Ordering.gt

/-- The comparator passed to `sort_by` in `find_violations`:
`idx_first_fn`, then `idx_second_fn`, then `name_first_fn`. -/
def violCmp (v w : Violation) : Ordering :=
  (cmpNat v.idx_first_fn w.idx_first_fn).then
    ((cmpNat v.idx_second_fn w.idx_second_fn).then
      (strCmp v.name_first_fn w.name_first_fn))

/-- The "is sorted before or equal" Boolean relation induced by `violCmp`,
used to express Rust's comparison sort as a merge sort. -/
def violLE (v w : Violation) : Bool :=
  violCmp v w ≠ Ordering.gt

/-- The `filter_map` closure inside `find_violations`: for a pair `(a, b)`
look up both metadata entries (skipping the pair when either is absent) and,
when `idx_a > idx_b`, build the `Violation` record.  The source's second
lookup of `a` (the `expect`) returns the same value as the first because the
map is unchanged, so the record's `fn_meta` is `ma`. -/
def violation_of_pair (name : LocalDefId → String)
    (functions : List (LocalDefId × FnMeta)) :
    LocalDefId × LocalDefId → Option Violation
  | (a, b) =>
    match List.lookup a functions with
    | none => none
    | some ma =>
      match List.lookup b functions with
      | none => none
      | some mb =>
        if mb.position_number < ma.position_number then
          some
            { idx_first_fn := ma.position_number
              idx_second_fn := mb.position_number
              name_first_fn := name a
              name_second_fn := name b
              id_first_fn := a
              fn_meta := ma }
        else none

/-- `find_violations`: map `violation_of_pair` over the constraint set
(handed over as an enumeration list `must_come_before`, since a hash set's
iteration order is arbitrary), then sort by `violCmp` (a comparison sort,
expressed as a merge sort with the induced `violLE`). -/
def find_violations (name : LocalDefId → String)
    (must_come_before : List (LocalDefId × LocalDefId))
    (functions : List (LocalDefId × FnMeta)) : List Violation :=
  let violations := must_come_before.filterMap (violation_of_pair name functions)
  violations.mergeSort violLE

/-- The per-caller step of the accumulation loop in `check_mod`: find the
caller's body; if present, collect its callees and fold both constraint
builders; a caller without a body leaves the set unchanged. -/
def process_caller (module : List Item) (functions : List (LocalDefId × FnMeta))
    (must : List (LocalDefId × LocalDefId)) (caller_id : LocalDefId) :
    List (LocalDefId × LocalDefId) :=
  match find_caller_body module caller_id with
  | some body =>
    let callees := collect_callees_in_body functions body
    build_multiple_precedence_rule callees
      (build_caller_callee_constraint caller_id callees must)
  | none => must

/-- The emission loop at the end of `check_mod`: walk the sorted violations
and emit each one whose `id_first_fn` has not been warned about yet
(`warned.insert` succeeding), recording the identity in `warned`.  The
emitted diagnostic is fully determined by the `Violation` record, so the
model returns the list of emitted records. -/
def emitDedup : List LocalDefId → List Violation → List Violation
  | _, [] => []
  | warned, v :: rest =>
    if v.id_first_fn ∈ warned then emitDedup warned rest
    else v :: emitDedup (v.id_first_fn :: warned) rest

/-- `check_mod`: the whole per-module analysis.  Collect functions; return
early when fewer than two were found; accumulate constraints over the
callers in declaration order; select, sort and deduplicate violations. -/
def check_mod (name : LocalDefId → String) (module : List Item) : List Violation :=
  let collected := collect_scope module 0
  let def_order := collected.1
  let functions := collected.2
  if def_order.length < 2 then []
  else
    let must_come_before := def_order.foldl (process_caller module functions) []
    let violations := find_violations name must_come_before functions
    emitDedup [] violations

/-- The accumulated constraint set of a module, exactly the value of
`must_come_before` inside `check_mod`: fold `process_caller` over the
callers in declaration order, starting from the empty set. -/
def module_constraints (module : List Item) : List (LocalDefId × LocalDefId) :=
  (collect_scope module 0).1.foldl (process_caller module (collect_scope module 0).2) []

/-- Modelled from the spec (§4.2): the ordered sequence of distinct
identities in first-mention order — keep each element's first occurrence and
drop every later duplicate.  Used as the specification-side description that
`collect_callees_in_body` is compared against. -/
def firstOccurrences : List LocalDefId → List LocalDefId
  | [] => []
  | a :: l => a :: firstOccurrences (l.filter (fun b => b ≠ a))
termination_by l => l.length
decreasing_by
  simp only [List.length_cons]
  exact Nat.lt_succ_of_le (List.length_filter_le _ _)

/-- The no-contradiction invariant of the constraint set: it never contains
both `(x, y)` and `(y, x)` for distinct `x`, `y`. -/
def NoContra (s : List (LocalDefId × LocalDefId)) : Prop :=
  ∀ x y : LocalDefId, x ≠ y → (x, y) ∈ s → (y, x) ∉ s

/-- A sample display-name assignment for concrete scopes. -/
def nm0 : LocalDefId → String := fun n => "f" ++ toString n

/-- A scope with a single function (calling itself). -/
def mod1 : List Item := [⟨0, 100, ItemKind.fn [some 0]⟩]

/-- Spec §8 Scenario 2: `bar` (position 0), then `foo` (position 1) calling
`bar`. -/
def mod2 : List Item := [⟨0, 100, ItemKind.fn []⟩, ⟨1, 101, ItemKind.fn [some 0]⟩]

/-- Spec §8 Scenario 3: `helper2` (0), `helper1` (1), `main` (2) calling
`helper1` then `helper2`. -/
def mod3 : List Item :=
  [⟨0, 100, ItemKind.fn []⟩, ⟨1, 101, ItemKind.fn []⟩,
   ⟨2, 102, ItemKind.fn [some 1, some 0]⟩]

/-- The two-caller conflict scope: `A = 0` calls `X = 2` then `Y = 3`;
`B = 1` calls `Y` then `X`; `X` and `Y` have empty bodies. -/
def mod4 : List Item :=
  [⟨0, 100, ItemKind.fn [some 2, some 3]⟩, ⟨1, 101, ItemKind.fn [some 3, some 2]⟩,
   ⟨2, 102, ItemKind.fn []⟩, ⟨3, 103, ItemKind.fn []⟩]

/-- A conflict scope in which the later-called function of caller `A = 0`
is `A` itself: `A` calls `X = 2` then itself, and `B = 1` calls `A` then
`X` (so, with `Y := A = 0`: `A`'s call sequence has `X` before `Y` and
`B`'s has `Y` before `X`). -/
def mod5 : List Item :=
  [⟨0, 100, ItemKind.fn [some 2, some 0]⟩, ⟨1, 101, ItemKind.fn [some 0, some 2]⟩,
   ⟨2, 102, ItemKind.fn []⟩]

/-! ### Basic helper lemmas -/

theorem mem_hsInsert_iff (p q : LocalDefId × LocalDefId) (s : List (LocalDefId × LocalDefId)) :
    p ∈ hsInsert q s ↔ p ∈ s ∨ p = q := by
  unfold hsInsert
  split_ifs with h
  · constructor
    · exact fun h' => Or.inl h'
    · rintro (h' | rfl)
      · exact h'
      · exact h
  · simp [List.mem_append]

theorem foldl_preserve {α σ : Type} (P : σ → Prop) (step : σ → α → σ) (l : List α) :
    (∀ t x, x ∈ l → P t → P (step t x)) → ∀ s : σ, P s → P (l.foldl step s) := by
  induction l with
  | nil => intro _ s hs; exact hs
  | cons x l ih =>
    intro H s hs
    exact ih (fun t y hy => H t y (List.mem_cons_of_mem _ hy)) (step s x)
      (H s x (List.mem_cons_self _ _) hs)

/-- Every element added by `build_caller_callee_constraint` is a pair
`(caller, callee)` with the callee drawn from the callee list, so any
pairwise predicate holding on those pairs and on the input set holds on the
output set. -/
theorem build_ccc_forall {Q : LocalDefId × LocalDefId → Prop} (c : LocalDefId)
    (cs : List LocalDefId) (s : List (LocalDefId × LocalDefId))
    (hQ : ∀ e ∈ cs, Q (c, e)) (hs : ∀ p ∈ s, Q p) :
    ∀ p ∈ build_caller_callee_constraint c cs s, Q p := by
  unfold build_caller_callee_constraint
  refine foldl_preserve (fun t => ∀ p ∈ t, Q p) _ cs ?_ s hs
  intro t e he ht p hp
  by_cases hmem : (e, c) ∈ t
  · rw [if_pos hmem] at hp; exact ht p hp
  · rw [if_neg hmem] at hp
    rcases (mem_hsInsert_iff p (c, e) t).mp hp with h | rfl
    · exact ht p h
    · exact hQ e he

/-- Every element added by `build_multiple_precedence_rule` is a pair of
elements of the callee list. -/
theorem build_mpr_forall {Q : LocalDefId × LocalDefId → Prop} (cs : List LocalDefId) :
    ∀ s : List (LocalDefId × LocalDefId), (∀ a ∈ cs, ∀ b ∈ cs, Q (a, b)) →
      (∀ p ∈ s, Q p) → ∀ p ∈ build_multiple_precedence_rule cs s, Q p := by
  induction cs with
  | nil => intro s _ hs; exact hs
  | cons a rest ih =>
    intro s hQ hs
    unfold build_multiple_precedence_rule
    refine ih _ (fun x hx y hy => hQ x (List.mem_cons_of_mem _ hx) y (List.mem_cons_of_mem _ hy)) ?_
    refine foldl_preserve (fun t => ∀ p ∈ t, Q p) _ rest ?_ s hs
    intro t b hb ht p hp
    by_cases hmem : (b, a) ∈ t
    · rw [if_pos hmem] at hp; exact ht p hp
    · rw [if_neg hmem] at hp
      rcases (mem_hsInsert_iff p (a, b) t).mp hp with h | rfl
      · exact ht p h
      · exact hQ a (List.mem_cons_self _ _) b (List.mem_cons_of_mem _ hb)

theorem mem_build_ccc_of_mem {p : LocalDefId × LocalDefId} (c : LocalDefId)
    (cs : List LocalDefId) (s : List (LocalDefId × LocalDefId)) (h : p ∈ s) :
    p ∈ build_caller_callee_constraint c cs s := by
  unfold build_caller_callee_constraint
  refine foldl_preserve (fun t => p ∈ t) _ cs ?_ s h
  intro t e _ ht
  by_cases hmem : (e, c) ∈ t
  · rw [if_pos hmem]; exact ht
  · rw [if_neg hmem]; exact (mem_hsInsert_iff p (c, e) t).mpr (Or.inl ht)

theorem mem_build_mpr_of_mem {p : LocalDefId × LocalDefId} (cs : List LocalDefId) :
    ∀ s : List (LocalDefId × LocalDefId), p ∈ s → p ∈ build_multiple_precedence_rule cs s := by
  induction cs with
  | nil => intro s hs; exact hs
  | cons a rest ih =>
    intro s hs
    unfold build_multiple_precedence_rule
    refine ih _ ?_
    refine foldl_preserve (fun t => p ∈ t) _ rest ?_ s hs
    intro t b _ ht
    by_cases hmem : (b, a) ∈ t
    · rw [if_pos hmem]; exact ht
    · rw [if_neg hmem]; exact (mem_hsInsert_iff p (a, b) t).mpr (Or.inl ht)

/-- The shared step shape of both builders — check the reversed pair, insert
the pair otherwise — preserves the no-contradiction invariant. -/
theorem noContra_guard_insert (a b : LocalDefId) (s : List (LocalDefId × LocalDefId))
    (h : NoContra s) :
    NoContra (if (b, a) ∈ s then s else hsInsert (a, b) s) := by
  by_cases hmem : (b, a) ∈ s
  · rwa [if_pos hmem]
  · rw [if_neg hmem]
    intro x y hxy hxys hyxs
    rcases (mem_hsInsert_iff (x, y) (a, b) s).mp hxys with h1 | h1
    · rcases (mem_hsInsert_iff (y, x) (a, b) s).mp hyxs with h2 | h2
      · exact h x y hxy h1 h2
      · have hx : y = a := congrArg Prod.fst h2
        have hy : x = b := congrArg Prod.snd h2
        rw [hx, hy] at h1
        exact hmem h1
    · have hx : x = a := congrArg Prod.fst h1
      have hy : y = b := congrArg Prod.snd h1
      rcases (mem_hsInsert_iff (y, x) (a, b) s).mp hyxs with h2 | h2
      · rw [hx, hy] at h2
        exact hmem h2
      · have h3 : y = a := congrArg Prod.fst h2
        exact hxy (hx.trans h3.symm)

theorem noContra_build_ccc (c : LocalDefId) (cs : List LocalDefId)
    (s : List (LocalDefId × LocalDefId)) (h : NoContra s) :
    NoContra (build_caller_callee_constraint c cs s) := by
  unfold build_caller_callee_constraint
  refine foldl_preserve NoContra _ cs ?_ s h
  intro t e _ ht
  exact noContra_guard_insert c e t ht

theorem noContra_build_mpr (cs : List LocalDefId) :
    ∀ s : List (LocalDefId × LocalDefId), NoContra s →
      NoContra (build_multiple_precedence_rule cs s) := by
  induction cs with
  | nil => intro s hs; exact hs
  | cons a rest ih =>
    intro s hs
    unfold build_multiple_precedence_rule
    refine ih _ ?_
    refine foldl_preserve NoContra _ rest ?_ s hs
    intro t b _ ht
    exact noContra_guard_insert a b t ht

theorem noContra_process_caller (module : List Item) (fns : List (LocalDefId × FnMeta))
    (s : List (LocalDefId × LocalDefId)) (c : LocalDefId) (h : NoContra s) :
    NoContra (process_caller module fns s c) := by
  unfold process_caller
  cases find_caller_body module c with
  | none => exact h
  | some body =>
    exact noContra_build_mpr _ _ (noContra_build_ccc _ _ _ h)

theorem noContra_nil : NoContra [] := by
  intro x y _ hxy
  simp at hxy

/-! ### Lemmas about scope collection and callee extraction -/

/-- Every identity in the declaration-order list has a metadata entry. -/
theorem collect_scope_lookup_isSome (module : List Item) :
    ∀ (idx d : Nat), d ∈ (collect_scope module idx).1 →
      (List.lookup d (collect_scope module idx).2).isSome = true := by
  induction module with
  | nil => intro idx d hd; simp [collect_scope] at hd
  | cons item rest ih =>
    intro idx d hd
    obtain ⟨did, sp, k⟩ := item
    cases k with
    | fn body =>
      simp only [collect_scope] at hd ⊢
      by_cases hdd : d = did
      · have hbeq : (d == did) = true := beq_iff_eq.mpr hdd
        rw [List.lookup_cons, hbeq]
        rfl
      · have hbeq : (d == did) = false := beq_eq_false_iff_ne.mpr hdd
        rw [List.lookup_cons, hbeq]
        rcases List.mem_cons.mp hd with h | h
        · exact absurd h hdd
        · exact ih (idx + 1) d h
    | other =>
      simp only [collect_scope] at hd ⊢
      exact ih idx d hd

/-- Conversely, every key of the metadata map is in the declaration-order
list. -/
theorem collect_scope_mem_of_lookup (module : List Item) :
    ∀ (idx d : Nat), (List.lookup d (collect_scope module idx).2).isSome = true →
      d ∈ (collect_scope module idx).1 := by
  induction module with
  | nil => intro idx d hd; simp [collect_scope, List.lookup] at hd
  | cons item rest ih =>
    intro idx d hd
    obtain ⟨did, sp, k⟩ := item
    cases k with
    | fn body =>
      simp only [collect_scope] at hd ⊢
      by_cases hdd : d = did
      · exact List.mem_cons.mpr (Or.inl hdd)
      · have hbeq : (d == did) = false := beq_eq_false_iff_ne.mpr hdd
        rw [List.lookup_cons, hbeq] at hd
        exact List.mem_cons.mpr (Or.inr (ih (idx + 1) d hd))
    | other =>
      simp only [collect_scope] at hd ⊢
      exact ih idx d hd

/-- Every callee produced by the call extractor is a key of the metadata
map it was given. -/
theorem mem_collect_callees (fns : List (LocalDefId × FnMeta))
    (body : List (Option LocalDefId)) :
    ∀ d ∈ collect_callees_in_body fns body, containsKey fns d = true := by
  unfold collect_callees_in_body
  refine foldl_preserve (fun f : Finder => ∀ d ∈ f.order, containsKey fns d = true) _ body
    ?_ ⟨[], []⟩ (by simp)
  intro f r _ hf
  cases r with
  | none => exact hf
  | some x =>
    simp only [visit_expr]
    split_ifs with h
    · intro d hd
      rcases List.mem_append.mp hd with h' | h'
      · exact hf d h'
      · rw [List.mem_singleton.mp h']
        exact h.1
    · exact hf

/-! ### C1: the constraint set never contains a contradictory pair -/

/-- C1: at every point of the analysis the must-come-before set never
contains both `(x, y)` and `(y, x)` for distinct `x`, `y`: both builder
operations preserve the invariant on the set they receive, and consequently
the set accumulated by the caller loop of `check_mod` (processing any list
of callers from any invariant-satisfying state, in particular the empty
one) satisfies it after every caller. -/
theorem c1 :
    (∀ (caller : LocalDefId) (callees : List LocalDefId)
        (s : List (LocalDefId × LocalDefId)),
        NoContra s → NoContra (build_caller_callee_constraint caller callees s)) ∧
    (∀ (callees : List LocalDefId) (s : List (LocalDefId × LocalDefId)),
        NoContra s → NoContra (build_multiple_precedence_rule callees s)) ∧
    (∀ (module : List Item) (fns : List (LocalDefId × FnMeta))
        (callers : List LocalDefId) (s : List (LocalDefId × LocalDefId)),
        NoContra s → NoContra (callers.foldl (process_caller module fns) s)) :=
  ⟨noContra_build_ccc, noContra_build_mpr, fun module fns callers s hs =>
    foldl_preserve NoContra _ callers
      (fun t c _ ht => noContra_process_caller module fns t c ht) s hs⟩

/-- Witness for C1 at a concrete input: the invariant holds after inserting
the constraints of caller `0` with callee list `[1]` into the empty set. -/
theorem c1_witness : NoContra (build_caller_callee_constraint 0 [1] []) :=
  c1.1 0 [1] [] noContra_nil

/-! ### C8: scopes with fewer than two functions produce nothing -/

/-- C8: when the collection pass finds fewer than two functions, `check_mod`
returns before building constraints or selecting violations, producing no
violations. -/
theorem c8 (name : LocalDefId → String) (module : List Item)
    (h : (collect_scope module 0).1.length < 2) : check_mod name module = [] := by
  simp only [check_mod]
  rw [if_pos h]

/-- Witness for C8: the single-function scope `mod1` produces no
violations. -/
theorem c8_witness : check_mod nm0 mod1 = [] :=
  c8 nm0 mod1 (by decide)

/-! ### C9: both metadata lookups succeed for every recorded pair -/

/-- C9: every pair ever inserted into the constraint set has both endpoints
present in the scope's metadata map (the caller comes from the declaration
order list and the callees are filtered through key membership), so in
`find_violations` both lookups succeed: the defensive skip is unreachable
and the second lookup of the first component (the source's `expect`) cannot
fail. -/
theorem c9 (module : List Item) :
    ∀ p ∈ module_constraints module,
      (List.lookup p.1 (collect_scope module 0).2).isSome = true ∧
      (List.lookup p.2 (collect_scope module 0).2).isSome = true := by
  unfold module_constraints
  refine foldl_preserve
    (fun t : List (LocalDefId × LocalDefId) => ∀ p ∈ t,
      (List.lookup p.1 (collect_scope module 0).2).isSome = true ∧
      (List.lookup p.2 (collect_scope module 0).2).isSome = true)
    _ _ ?_ [] (by simp)
  intro t c hc ht
  unfold process_caller
  cases hb : find_caller_body module c with
  | none => exact ht
  | some body =>
    refine build_mpr_forall _ _ ?_ ?_
    · intro a ha b hbmem
      have ha' := mem_collect_callees _ _ a ha
      have hb' := mem_collect_callees _ _ b hbmem
      unfold containsKey at ha' hb'
      exact ⟨ha', hb'⟩
    · refine build_ccc_forall _ _ _ ?_ ht
      intro e he
      have he' := mem_collect_callees _ _ e he
      unfold containsKey at he'
      exact ⟨collect_scope_lookup_isSome module 0 c hc, he'⟩

/-- Witness for C9: in Scenario 2's scope the pair `(1, 0)` is recorded and
both lookups succeed. -/
theorem c9_witness :
    (List.lookup 1 (collect_scope mod2 0).2).isSome = true ∧
    (List.lookup 0 (collect_scope mod2 0).2).isSome = true :=
  c9 mod2 (1, 0) (by decide)

/-! ### C10: every declared function's body is found -/

/-- C10: for every identity in the declaration-order list the body search
succeeds (the identity was collected from a function item of the module, and
`find_caller_body` scans the same items), so no caller is silently skipped
by the accumulation loop of `check_mod`. -/
theorem c10 (module : List Item) :
    ∀ (idx d : Nat), d ∈ (collect_scope module idx).1 →
      ∃ body, find_caller_body module d = some body := by
  induction module with
  | nil => intro idx d hd; simp [collect_scope] at hd
  | cons item rest ih =>
    intro idx d hd
    obtain ⟨did, sp, k⟩ := item
    cases k with
    | fn body =>
      simp only [collect_scope] at hd
      by_cases hdd : did = d
      · exact ⟨body, by simp [find_caller_body, hdd]⟩
      · rcases List.mem_cons.mp hd with h | h
        · exact absurd h.symm hdd
        · obtain ⟨b, hb⟩ := ih (idx + 1) d h
          exact ⟨b, by simp [find_caller_body, hdd, hb]⟩
    | other =>
      simp only [collect_scope] at hd
      obtain ⟨b, hb⟩ := ih idx d hd
      exact ⟨b, by simp [find_caller_body, hb]⟩

/-- Witness for C10: in Scenario 2's scope the body of function `1` is
found. -/
theorem c10_witness : ∃ body, find_caller_body mod2 1 = some body :=
  c10 mod2 0 1 (by decide)

/-! ### C5: the call extractor returns first-mention order -/

theorem mem_of_mem_firstOccurrences (l : List LocalDefId) :
    ∀ d ∈ firstOccurrences l, d ∈ l := by
  induction l using firstOccurrences.induct with
  | case1 => simp [firstOccurrences]
  | case2 a t ih =>
    intro d hd
    rw [firstOccurrences] at hd
    rcases List.mem_cons.mp hd with rfl | hd'
    · exact List.mem_cons_self _ _
    · exact List.mem_cons_of_mem _ (List.mem_of_mem_filter (ih d hd'))

theorem firstOccurrences_nodup (l : List LocalDefId) : (firstOccurrences l).Nodup := by
  induction l using firstOccurrences.induct with
  | case1 => simp [firstOccurrences]
  | case2 a t ih =>
    rw [firstOccurrences]
    refine List.nodup_cons.mpr ⟨?_, ih⟩
    intro ha
    have := List.mem_filter.mp (mem_of_mem_firstOccurrences _ a ha)
    simp at this

/-- The `Finder` fold, from an arbitrary visitor state: the final discovery
order is the initial order followed by the first occurrences of the body's
resolved sibling calls that were not already seen. -/
theorem finder_foldl (fns : List (LocalDefId × FnMeta)) :
    ∀ (body : List (Option LocalDefId)) (f : Finder),
      (body.foldl (visit_expr fns) f).order
        = f.order ++ firstOccurrences
            (((body.filterMap id).filter (fun d => containsKey fns d)).filter
              (fun d => decide (d ∉ f.seen))) := by
  intro body
  induction body with
  | nil => intro f; simp [firstOccurrences]
  | cons r body ih =>
    intro f
    cases r with
    | none =>
      simp only [List.foldl_cons, List.filterMap_cons_none, visit_expr]
      exact ih f
    | some x =>
      simp only [List.foldl_cons, visit_expr]
      have hfm : List.filterMap id (some x :: body) = x :: List.filterMap id body := by
        simp
      rw [hfm]
      by_cases h : containsKey fns x = true ∧ x ∉ f.seen
      · rw [if_pos h]
        rw [ih ⟨x :: f.seen, f.order ++ [x]⟩]
        rw [List.filter_cons_of_pos h.1]
        rw [List.filter_cons_of_pos (by simpa using h.2)]
        rw [firstOccurrences]
        have hmerge : List.filter (fun b => decide (b ≠ x))
            (List.filter (fun d => decide (d ∉ f.seen))
              (List.filter (fun d => containsKey fns d) (List.filterMap id body)))
            = List.filter (fun d => decide (d ∉ x :: f.seen))
              (List.filter (fun d => containsKey fns d) (List.filterMap id body)) := by
          rw [List.filter_filter]
          refine List.filter_congr ?_
          intro d _
          by_cases h1 : d = x <;> by_cases h2 : d ∈ f.seen <;> simp [h1, h2]
        rw [hmerge]
        simp
      · rw [if_neg h]
        rw [ih f]
        by_cases hc : containsKey fns x = true
        · have hx : x ∈ f.seen := by
            by_contra hx
            exact h ⟨hc, hx⟩
          rw [List.filter_cons_of_pos hc]
          rw [List.filter_cons_of_neg (by simpa using hx)]
        · rw [List.filter_cons_of_neg (by simpa using hc)]

/-- C5: the call extractor returns exactly the ordered sequence of distinct
sibling identities in first-mention (discovery) order: the body's resolved
call targets, restricted to identities present in the sibling metadata map,
with every repetition after the first occurrence dropped; the result is
duplicate-free.  `firstOccurrences` is the specification-side description
of first-mention deduplication. -/
theorem c5 (fns : List (LocalDefId × FnMeta)) (body : List (Option LocalDefId)) :
    collect_callees_in_body fns body
      = firstOccurrences ((body.filterMap id).filter (fun d => containsKey fns d)) ∧
    (collect_callees_in_body fns body).Nodup := by
  have key : collect_callees_in_body fns body
      = firstOccurrences ((body.filterMap id).filter (fun d => containsKey fns d)) := by
    unfold collect_callees_in_body
    rw [finder_foldl fns body ⟨[], []⟩]
    have hpred : ∀ d ∈ (body.filterMap id).filter (fun d => containsKey fns d),
        decide (d ∉ ([] : List LocalDefId)) = true := by
      intro d _
      simp
    rw [List.filter_congr hpred, List.filter_true]
    simp
  exact ⟨key, key ▸ firstOccurrences_nodup _⟩

/-- Witness for C5 at a concrete input: a body calling function `1`, a
foreign function, function `1` again, and function `0` twice yields the
discovery order `[1, 0]`. -/
theorem c5_witness :
    collect_callees_in_body [(0, ⟨0, 100⟩), (1, ⟨1, 101⟩)]
        [some 1, some 5, none, some 1, some 0, some 0]
      = firstOccurrences
          (([some 1, some 5, none, some 1, some 0, some 0].filterMap id).filter
            (fun d => containsKey [(0, ⟨0, 100⟩), (1, ⟨1, 101⟩)] d)) ∧
    (collect_callees_in_body [(0, ⟨0, 100⟩), (1, ⟨1, 101⟩)]
        [some 1, some 5, none, some 1, some 0, some 0]).Nodup :=
  c5 [(0, ⟨0, 100⟩), (1, ⟨1, 101⟩)] [some 1, some 5, none, some 1, some 0, some 0]

/-! ### The comparator and the violation-membership characterization -/

/-- The comparison relation `violLE`, spelt out as a lexicographic order on
the sort key `(idx_first_fn, idx_second_fn, name_first_fn)`. -/
theorem violLE_iff (v w : Violation) :
    violLE v w = true ↔
      (v.idx_first_fn < w.idx_first_fn ∨
        (v.idx_first_fn = w.idx_first_fn ∧
          (v.idx_second_fn < w.idx_second_fn ∨
            (v.idx_second_fn = w.idx_second_fn ∧
              v.name_first_fn ≤ w.name_first_fn)))) := by
  rcases Nat.lt_trichotomy v.idx_first_fn w.idx_first_fn with h1 | h1 | h1
  · simp [violLE, violCmp, cmpNat, h1, Ordering.then]
  · rcases Nat.lt_trichotomy v.idx_second_fn w.idx_second_fn with h2 | h2 | h2
    · simp [violLE, violCmp, cmpNat, h1, h2, Ordering.then, Nat.lt_irrefl]
    · rcases lt_trichotomy v.name_first_fn w.name_first_fn with h3 | h3 | h3
      · simp [violLE, violCmp, cmpNat, strCmp, h1, h2, h3, Ordering.then,
          Nat.lt_irrefl, le_of_lt h3]
      · simp [violLE, violCmp, cmpNat, strCmp, h1, h2, h3, Ordering.then,
          Nat.lt_irrefl, le_of_eq h3]
      · simp [violLE, violCmp, cmpNat, strCmp, h1, h2, Ordering.then,
          Nat.lt_irrefl, not_lt_of_gt h3, ne_of_gt h3, not_le_of_gt h3]
    · simp [violLE, violCmp, cmpNat, h1, Ordering.then, Nat.lt_irrefl,
        Nat.lt_asymm h2, Nat.ne_of_gt h2, Nat.not_lt_of_gt h2]
  · simp [violLE, violCmp, cmpNat, Ordering.then, Nat.lt_asymm h1,
      Nat.ne_of_gt h1, Nat.not_lt_of_gt h1]

theorem violLE_total (v w : Violation) : (violLE v w || violLE w v) = true := by
  rw [Bool.or_eq_true, violLE_iff, violLE_iff]
  rcases Nat.lt_trichotomy v.idx_first_fn w.idx_first_fn with h1 | h1 | h1
  · exact Or.inl (Or.inl h1)
  · rcases Nat.lt_trichotomy v.idx_second_fn w.idx_second_fn with h2 | h2 | h2
    · exact Or.inl (Or.inr ⟨h1, Or.inl h2⟩)
    · rcases le_total v.name_first_fn w.name_first_fn with h3 | h3
      · exact Or.inl (Or.inr ⟨h1, Or.inr ⟨h2, h3⟩⟩)
      · exact Or.inr (Or.inr ⟨h1.symm, Or.inr ⟨h2.symm, h3⟩⟩)
    · exact Or.inr (Or.inr ⟨h1.symm, Or.inl h2⟩)
  · exact Or.inr (Or.inl h1)

theorem violLE_trans (u v w : Violation) (h1 : violLE u v = true)
    (h2 : violLE v w = true) : violLE u w = true := by
  rw [violLE_iff] at h1 h2 ⊢
  rcases h1 with h1 | ⟨e1, h1⟩
  · rcases h2 with h2 | ⟨e2, h2⟩
    · exact Or.inl (by omega)
    · exact Or.inl (by omega)
  · rcases h2 with h2 | ⟨e2, h2⟩
    · exact Or.inl (by omega)
    · refine Or.inr ⟨by omega, ?_⟩
      rcases h1 with h1 | ⟨f1, h1⟩
      · rcases h2 with h2 | ⟨f2, h2⟩
        · exact Or.inl (by omega)
        · exact Or.inl (by omega)
      · rcases h2 with h2 | ⟨f2, h2⟩
        · exact Or.inl (by omega)
        · exact Or.inr ⟨by omega, le_trans h1 h2⟩

/-- Mutually `violLE`-comparable violations agree on both position
components of the sort key. -/
theorem violLE_antisymm_keys (v w : Violation) (h1 : violLE v w = true)
    (h2 : violLE w v = true) :
    v.idx_first_fn = w.idx_first_fn ∧ v.idx_second_fn = w.idx_second_fn := by
  rw [violLE_iff] at h1 h2
  rcases h1 with h1 | ⟨e1, h1 | ⟨f1, h1⟩⟩ <;>
    rcases h2 with h2 | ⟨e2, h2 | ⟨f2, h2⟩⟩ <;> omega

theorem violLE_second_le {v w : Violation} (h : violLE v w = true)
    (h1 : v.idx_first_fn = w.idx_first_fn) :
    v.idx_second_fn ≤ w.idx_second_fn := by
  rw [violLE_iff] at h
  rcases h with h | ⟨e, h | ⟨f, _⟩⟩ <;> omega

theorem mem_of_lookup_eq_some {l : List (LocalDefId × FnMeta)} {k : LocalDefId}
    {v : FnMeta} (h : List.lookup k l = some v) : (k, v) ∈ l := by
  obtain ⟨l₁, l₂, hl, -⟩ := List.lookup_eq_some_iff.mp h
  subst hl
  simp

/-- What `violation_of_pair` produces, characterised. -/
theorem violation_of_pair_eq_some {name : LocalDefId → String}
    {fns : List (LocalDefId × FnMeta)} {a b : LocalDefId} {v : Violation} :
    violation_of_pair name fns (a, b) = some v ↔
      ∃ ma mb : FnMeta, List.lookup a fns = some ma ∧ List.lookup b fns = some mb ∧
        mb.position_number < ma.position_number ∧
        v = ⟨ma.position_number, mb.position_number, name a, name b, a, ma⟩ := by
  constructor
  · intro h
    cases hma : List.lookup a fns with
    | none => simp [violation_of_pair, hma] at h
    | some ma =>
      cases hmb : List.lookup b fns with
      | none => simp [violation_of_pair, hma, hmb] at h
      | some mb =>
        by_cases hpos : mb.position_number < ma.position_number
        · simp only [violation_of_pair, hma, hmb, if_pos hpos] at h
          exact ⟨ma, mb, rfl, rfl, hpos, (Option.some_injective _ h).symm⟩
        · simp [violation_of_pair, hma, hmb, hpos] at h
  · rintro ⟨ma, mb, hma, hmb, hpos, rfl⟩
    simp [violation_of_pair, hma, hmb, hpos]

/-- Membership in the output of `find_violations`, characterised: a record
is produced exactly for the constraint pairs whose two metadata lookups both
succeed and whose positions are inverted, and it carries the first
component's position, the second's position, both display names, the first
component's identity and its metadata (hence its span). -/
theorem mem_find_violations {name : LocalDefId → String}
    {must : List (LocalDefId × LocalDefId)} {fns : List (LocalDefId × FnMeta)}
    {v : Violation} :
    v ∈ find_violations name must fns ↔
      ∃ a b : LocalDefId, (a, b) ∈ must ∧
        ∃ ma mb : FnMeta, List.lookup a fns = some ma ∧ List.lookup b fns = some mb ∧
          mb.position_number < ma.position_number ∧
          v = ⟨ma.position_number, mb.position_number, name a, name b, a, ma⟩ := by
  unfold find_violations
  rw [List.mem_mergeSort, List.mem_filterMap]
  constructor
  · rintro ⟨⟨a, b⟩, hab, hfab⟩
    exact ⟨a, b, hab, violation_of_pair_eq_some.mp hfab⟩
  · rintro ⟨a, b, hab, hrest⟩
    exact ⟨(a, b), hab, violation_of_pair_eq_some.mpr hrest⟩

/-! ### C4: the violation selector's contract -/

/-- C4: `find_violations` produces a record for a pair `(before, after)`
exactly when both metadata lookups succeed and
`position(before) > position(after)`; a pair with a missing lookup is
skipped silently (no record, no error — the function is total), and the
record carries before's position, after's position, both display names and
before's metadata (position and span). -/
theorem c4 (name : LocalDefId → String) (must : List (LocalDefId × LocalDefId))
    (fns : List (LocalDefId × FnMeta)) (v : Violation) :
    v ∈ find_violations name must fns ↔
      ∃ a b : LocalDefId, (a, b) ∈ must ∧
        ∃ ma mb : FnMeta, List.lookup a fns = some ma ∧ List.lookup b fns = some mb ∧
          mb.position_number < ma.position_number ∧
          v = ⟨ma.position_number, mb.position_number, name a, name b, a, ma⟩ :=
  mem_find_violations

/-- Witness for C4: in Scenario 2's metadata, the pair `(1, 0)` yields the
violation record for function `1`. -/
theorem c4_witness :
    (⟨1, 0, nm0 1, nm0 0, 1, ⟨1, 101⟩⟩ : Violation)
      ∈ find_violations nm0 [(1, 0)] (collect_scope mod2 0).2 :=
  (c4 nm0 [(1, 0)] (collect_scope mod2 0).2 ⟨1, 0, nm0 1, nm0 0, 1, ⟨1, 101⟩⟩).mpr
    ⟨1, 0, by decide, ⟨1, 101⟩, ⟨0, 100⟩, by decide, by decide, by decide, rfl⟩

/-! ### C6: self-pairs are no-ops for the violation selector -/

/-- C6: a self-pair `(x, x)` in the constraint set is a no-op for the
violation selector — prepending it to the enumeration leaves the output
unchanged — and no produced record ever has equal first and second
positions (in particular none with before = after). -/
theorem c6 (name : LocalDefId → String) (must : List (LocalDefId × LocalDefId))
    (fns : List (LocalDefId × FnMeta)) (x : LocalDefId) :
    find_violations name ((x, x) :: must) fns = find_violations name must fns ∧
    ∀ v ∈ find_violations name must fns, v.idx_second_fn < v.idx_first_fn := by
  constructor
  · have hx : violation_of_pair name fns (x, x) = none := by
      cases hma : List.lookup x fns with
      | none => simp [violation_of_pair, hma]
      | some ma => simp [violation_of_pair, hma]
    unfold find_violations
    rw [List.filterMap_cons, hx]
  · intro v hv
    obtain ⟨a, b, hab, ma, mb, hma, hmb, hpos, rfl⟩ := mem_find_violations.mp hv
    exact hpos

/-- Witness for C6: prepending the self-pair `(0, 0)` in Scenario 2's scope
changes nothing, and the remaining violation has inverted positions. -/
theorem c6_witness :
    find_violations nm0 [(0, 0), (1, 0)] (collect_scope mod2 0).2
        = find_violations nm0 [(1, 0)] (collect_scope mod2 0).2 ∧
    ∀ v ∈ find_violations nm0 [(1, 0)] (collect_scope mod2 0).2,
      v.idx_second_fn < v.idx_first_fn :=
  c6 nm0 [(1, 0)] (collect_scope mod2 0).2 0

/-! ### C7: determinism regardless of the set's internal storage order -/

/-- The sorted output of `find_violations`. -/
theorem find_violations_sorted (name : LocalDefId → String)
    (must : List (LocalDefId × LocalDefId)) (fns : List (LocalDefId × FnMeta)) :
    (find_violations name must fns).Pairwise (fun v w => violLE v w = true) := by
  unfold find_violations
  exact List.sorted_mergeSort violLE_trans violLE_total _

/-- Two sorted lists that are permutations of one another are equal,
provided mutually comparable members are equal. -/
theorem sorted_perm_eq {α : Type} {le : α → α → Bool} :
    ∀ {l₁ l₂ : List α}, l₁.Perm l₂ →
      l₁.Pairwise (fun a b => le a b = true) →
      l₂.Pairwise (fun a b => le a b = true) →
      (∀ x ∈ l₁, ∀ y ∈ l₂, le x y = true → le y x = true → x = y) →
      l₁ = l₂ := by
  intro l₁
  induction l₁ with
  | nil =>
    intro l₂ hp _ _ _
    exact (hp.symm.eq_nil).symm
  | cons a t₁ ih =>
    intro l₂ hp hs₁ hs₂ hanti
    cases l₂ with
    | nil => exact absurd hp.eq_nil (by simp)
    | cons b t₂ =>
      have hab : a = b := by
        have hmem_a : a ∈ b :: t₂ := hp.mem_iff.mp (List.mem_cons_self _ _)
        rcases List.mem_cons.mp hmem_a with h | h
        · exact h
        · have hba : le b a = true := (List.pairwise_cons.mp hs₂).1 a h
          have hmem_b : b ∈ a :: t₁ := hp.symm.mem_iff.mp (List.mem_cons_self _ _)
          rcases List.mem_cons.mp hmem_b with h' | h'
          · exact h'.symm
          · have hab' : le a b = true := (List.pairwise_cons.mp hs₁).1 b h'
            exact hanti a (List.mem_cons_self _ _) b (List.mem_cons_self _ _) hab' hba
      subst hab
      have ht := ih hp.cons_inv (List.pairwise_cons.mp hs₁).2 (List.pairwise_cons.mp hs₂).2
        (fun x hx y hy => hanti x (List.mem_cons_of_mem _ hx) y (List.mem_cons_of_mem _ hy))
      rw [ht]

/-- C7: the analysis is deterministic with respect to the constraint set's
unordered internal storage: whenever the position numbers recorded in the
metadata map are pairwise distinct (as `check_mod`'s collection guarantees),
any two enumerations of the same constraint set — i.e. any permutation —
yield the same sorted violation list, and hence the same emitted output.
Together with the model being a pure function of the scope, running the
analysis twice on the same unchanged scope yields identical,
identically-ordered output. -/
theorem c7 (name : LocalDefId → String) (fns : List (LocalDefId × FnMeta))
    (hinj : (fns.map (fun e => e.2.position_number)).Nodup)
    (must₁ must₂ : List (LocalDefId × LocalDefId)) (hperm : must₁.Perm must₂) :
    find_violations name must₁ fns = find_violations name must₂ fns ∧
    emitDedup [] (find_violations name must₁ fns)
      = emitDedup [] (find_violations name must₂ fns) := by
  have hmain : find_violations name must₁ fns = find_violations name must₂ fns := by
    refine sorted_perm_eq ?_ (find_violations_sorted name must₁ fns)
      (find_violations_sorted name must₂ fns) ?_
    · unfold find_violations
      exact (List.mergeSort_perm _ _).trans
        ((hperm.filterMap _).trans (List.mergeSort_perm _ _).symm)
    · intro x hx y hy hxy hyx
      obtain ⟨a, b, hab, ma, mb, hma, hmb, hpos, rfl⟩ := mem_find_violations.mp hx
      obtain ⟨a', b', hab', ma', mb', hma', hmb', hpos', rfl⟩ := mem_find_violations.mp hy
      obtain ⟨h1, h2⟩ := violLE_antisymm_keys _ _ hxy hyx
      have hEqa : (a, ma) = (a', ma') :=
        List.inj_on_of_nodup_map hinj (mem_of_lookup_eq_some hma)
          (mem_of_lookup_eq_some hma') h1
      have hEqb : (b, mb) = (b', mb') :=
        List.inj_on_of_nodup_map hinj (mem_of_lookup_eq_some hmb)
          (mem_of_lookup_eq_some hmb') h2
      have ha : a = a' := congrArg Prod.fst hEqa
      have hmaeq : ma = ma' := congrArg Prod.snd hEqa
      have hb : b = b' := congrArg Prod.fst hEqb
      have hmbeq : mb = mb' := congrArg Prod.snd hEqb
      rw [ha, hb, hmaeq, hmbeq]
  exact ⟨hmain, by rw [hmain]⟩

/-- Witness for C7: swapping the enumeration order of the two-pair
constraint set of Scenario 3's scope changes neither the sorted violations
nor the emitted output. -/
theorem c7_witness :
    find_violations nm0 [(2, 0), (1, 0)] (collect_scope mod3 0).2
      = find_violations nm0 [(1, 0), (2, 0)] (collect_scope mod3 0).2 ∧
    emitDedup [] (find_violations nm0 [(2, 0), (1, 0)] (collect_scope mod3 0).2)
      = emitDedup [] (find_violations nm0 [(1, 0), (2, 0)] (collect_scope mod3 0).2) :=
  c7 nm0 (collect_scope mod3 0).2 (by decide) [(2, 0), (1, 0)] [(1, 0), (2, 0)]
    (by decide)

/-! ### C3: sorted, per-identity-deduplicated reporting -/

theorem mem_of_mem_emitDedup :
    ∀ (warned : List LocalDefId) (vs : List Violation) (v : Violation),
      v ∈ emitDedup warned vs → v ∈ vs := by
  intro warned vs
  induction vs generalizing warned with
  | nil => intro v hv; simp [emitDedup] at hv
  | cons u rest ih =>
    intro v hv
    simp only [emitDedup] at hv
    split_ifs at hv with h
    · exact List.mem_cons_of_mem _ (ih warned v hv)
    · rcases List.mem_cons.mp hv with rfl | hv'
      · exact List.mem_cons_self _ _
      · exact List.mem_cons_of_mem _ (ih _ v hv')

theorem emitDedup_id_not_warned :
    ∀ (warned : List LocalDefId) (vs : List Violation) (v : Violation),
      v ∈ emitDedup warned vs → v.id_first_fn ∉ warned := by
  intro warned vs
  induction vs generalizing warned with
  | nil => intro v hv; simp [emitDedup] at hv
  | cons u rest ih =>
    intro v hv
    simp only [emitDedup] at hv
    split_ifs at hv with h
    · exact ih warned v hv
    · rcases List.mem_cons.mp hv with rfl | hv'
      · exact h
      · intro hcon
        exact ih _ v hv' (List.mem_cons_of_mem _ hcon)

/-- An emitted violation is, among the violations sharing its identity, the
first one of the sorted list: every other record with the same identity is
the record itself or comes `violLE`-after it. -/
theorem emitDedup_first :
    ∀ (warned : List LocalDefId) (vs : List Violation),
      vs.Pairwise (fun a b => violLE a b = true) →
      ∀ v ∈ emitDedup warned vs, ∀ w ∈ vs,
        w.id_first_fn = v.id_first_fn → v = w ∨ violLE v w = true := by
  intro warned vs
  induction vs generalizing warned with
  | nil => intro _ v hv; simp [emitDedup] at hv
  | cons u rest ih =>
    intro hs v hv w hw hid
    simp only [emitDedup] at hv
    split_ifs at hv with h
    · rcases List.mem_cons.mp hw with rfl | hw'
      · exact absurd (hid ▸ h) (emitDedup_id_not_warned warned rest v hv)
      · exact ih warned (List.pairwise_cons.mp hs).2 v hv w hw' hid
    · rcases List.mem_cons.mp hv with rfl | hv'
      · rcases List.mem_cons.mp hw with rfl | hw'
        · exact Or.inl rfl
        · exact Or.inr ((List.pairwise_cons.mp hs).1 w hw')
      · rcases List.mem_cons.mp hw with rfl | hw'
        · have hnw := emitDedup_id_not_warned _ rest v hv'
          refine absurd ?_ hnw
          rw [← hid]
          exact List.mem_cons_self _ _
        · exact ih _ (List.pairwise_cons.mp hs).2 v hv' w hw' hid

theorem emitDedup_ids_nodup :
    ∀ (warned : List LocalDefId) (vs : List Violation),
      ((emitDedup warned vs).map (fun v => v.id_first_fn)).Nodup := by
  intro warned vs
  induction vs generalizing warned with
  | nil => simp [emitDedup]
  | cons u rest ih =>
    simp only [emitDedup]
    split_ifs with h
    · exact ih warned
    · rw [List.map_cons]
      refine List.nodup_cons.mpr ⟨?_, ih _⟩
      intro hmem
      obtain ⟨v, hv, hveq⟩ := List.mem_map.mp hmem
      exact emitDedup_id_not_warned _ rest v hv (hveq ▸ List.mem_cons_self _ _)

/-- C3: per-scope reporting is sorted, de-duplicated and minimal: the
violation list is sorted by the key (before position, after position,
before name); the emitted output contains at most one record per offending
identity (its identities are duplicate-free), so its length is at most the
number of distinct functions of the scope; and every emitted record has the
least after-position among the sorted violations sharing its before
identity (ties by name leave the first sorted occurrence). -/
theorem c3 (name : LocalDefId → String) (module : List Item) :
    (find_violations name (module_constraints module) (collect_scope module 0).2).Pairwise
      (fun v w => violLE v w = true) ∧
    ((check_mod name module).map (fun v => v.id_first_fn)).Nodup ∧
    (check_mod name module).length ≤ (collect_scope module 0).1.toFinset.card ∧
    (∀ v ∈ check_mod name module,
      ∀ w ∈ find_violations name (module_constraints module) (collect_scope module 0).2,
        w.id_first_fn = v.id_first_fn → v.idx_second_fn ≤ w.idx_second_fn) := by
  have hck : check_mod name module = [] ∨
      check_mod name module
        = emitDedup []
            (find_violations name (module_constraints module) (collect_scope module 0).2) := by
    by_cases hg : (collect_scope module 0).1.length < 2
    · left
      simp only [check_mod]
      rw [if_pos hg]
    · right
      simp only [check_mod, module_constraints]
      rw [if_neg hg]
  refine ⟨find_violations_sorted _ _ _, ?_, ?_, ?_⟩
  · rcases hck with h | h
    · simp [h]
    · rw [h]
      exact emitDedup_ids_nodup _ _
  · rcases hck with h | h
    · simp [h]
    · rw [h]
      set vs := find_violations name (module_constraints module) (collect_scope module 0).2
      have hnd := emitDedup_ids_nodup ([] : List LocalDefId) vs
      have hsub : ∀ d ∈ (emitDedup [] vs).map (fun v => v.id_first_fn),
          d ∈ (collect_scope module 0).1 := by
        intro d hd
        obtain ⟨v, hv, hveq⟩ := List.mem_map.mp hd
        obtain ⟨a, b, hab, ma, mb, hma, hmb, hpos, rfl⟩ :=
          mem_find_violations.mp (mem_of_mem_emitDedup _ _ v hv)
        have : (List.lookup a (collect_scope module 0).2).isSome = true := by
          rw [hma]; rfl
        exact hveq ▸ collect_scope_mem_of_lookup module 0 a this
      calc (emitDedup [] vs).length
          = ((emitDedup [] vs).map (fun v => v.id_first_fn)).length := by
            rw [List.length_map]
        _ = ((emitDedup [] vs).map (fun v => v.id_first_fn)).toFinset.card :=
            (List.toFinset_card_of_nodup hnd).symm
        _ ≤ (collect_scope module 0).1.toFinset.card := by
            refine Finset.card_le_card ?_
            intro d hd
            rw [List.mem_toFinset] at hd ⊢
            exact hsub d hd
  · intro v hv w hw hid
    rcases hck with h | h
    · rw [h] at hv; simp at hv
    · rw [h] at hv
      have hvvs := mem_of_mem_emitDedup _ _ v hv
      have hidx : v.idx_first_fn = w.idx_first_fn := by
        obtain ⟨a, b, hab, ma, mb, hma, hmb, hpos, rfl⟩ := mem_find_violations.mp hvvs
        obtain ⟨a', b', hab', ma', mb', hma', hmb', hpos', rfl⟩ := mem_find_violations.mp hw
        have haa : a' = a := hid
        rw [haa] at hma'
        have hmaeq : ma' = ma := Option.some_injective _ (hma'.symm.trans hma)
        simp [hmaeq]
      rcases emitDedup_first [] _ (find_violations_sorted _ _ _) v hv w hw hid with rfl | hle
      · exact le_refl _
      · exact violLE_second_le hle hidx

/-- Witness for C3 at Scenario 3's scope (which has two violations sharing
nothing, and three functions): the emitted list is within the distinct
function count. -/
theorem c3_witness :
    (check_mod nm0 mod3).length ≤ (collect_scope mod3 0).1.toFinset.card :=
  (c3 nm0 mod3).2.2.1

/-! ### C2: first-writer-wins conflict resolution -/

/-- Once `(X, Y)` is present and `(Y, X)` absent, the caller-callee builder
keeps it that way, for any caller and callee list: inserting `(Y, X)` would
require its guard `(X, Y) ∈ set` to fail. -/
theorem pairP_preserved_ccc (X Y c : LocalDefId) (cs : List LocalDefId)
    (s : List (LocalDefId × LocalDefId)) (hin : (X, Y) ∈ s) (hout : (Y, X) ∉ s) :
    (X, Y) ∈ build_caller_callee_constraint c cs s ∧
    (Y, X) ∉ build_caller_callee_constraint c cs s := by
  unfold build_caller_callee_constraint
  refine foldl_preserve
    (fun t : List (LocalDefId × LocalDefId) => (X, Y) ∈ t ∧ (Y, X) ∉ t) _ cs ?_ s ⟨hin, hout⟩
  intro t e _ ht
  by_cases hmem : (e, c) ∈ t
  · rwa [if_pos hmem]
  · rw [if_neg hmem]
    refine ⟨(mem_hsInsert_iff _ _ _).mpr (Or.inl ht.1), ?_⟩
    intro hcon
    rcases (mem_hsInsert_iff _ _ _).mp hcon with h | h
    · exact ht.2 h
    · have hc : Y = c := congrArg Prod.fst h
      have he : X = e := congrArg Prod.snd h
      rw [← hc, ← he] at hmem
      exact hmem ht.1

/-- Same preservation for the sibling-order builder, for any callee list. -/
theorem pairP_preserved_mpr (X Y : LocalDefId) (cs : List LocalDefId) :
    ∀ s : List (LocalDefId × LocalDefId), (X, Y) ∈ s → (Y, X) ∉ s →
      (X, Y) ∈ build_multiple_precedence_rule cs s ∧
      (Y, X) ∉ build_multiple_precedence_rule cs s := by
  induction cs with
  | nil => intro s hin hout; exact ⟨hin, hout⟩
  | cons a rest ih =>
    intro s hin hout
    unfold build_multiple_precedence_rule
    have key := foldl_preserve
      (fun t : List (LocalDefId × LocalDefId) => (X, Y) ∈ t ∧ (Y, X) ∉ t)
      (fun m b => if (b, a) ∈ m then m else hsInsert (a, b) m) rest ?_ s ⟨hin, hout⟩
    · exact ih _ key.1 key.2
    · intro t b _ ht
      show (X, Y) ∈ (if (b, a) ∈ t then t else hsInsert (a, b) t) ∧
        (Y, X) ∉ (if (b, a) ∈ t then t else hsInsert (a, b) t)
      by_cases hmem : (b, a) ∈ t
      · rwa [if_pos hmem]
      · rw [if_neg hmem]
        refine ⟨(mem_hsInsert_iff _ _ _).mpr (Or.inl ht.1), ?_⟩
        intro hcon
        rcases (mem_hsInsert_iff _ _ _).mp hcon with h | h
        · exact ht.2 h
        · have ha : Y = a := congrArg Prod.fst h
          have hb : X = b := congrArg Prod.snd h
          rw [← ha, ← hb] at hmem
          exact hmem ht.1

/-- While caller `c ≠ Y` is processed by the caller-callee builder, the pair
`(Y, X)` cannot appear: every inserted pair has first component `c`. -/
theorem notYX_preserved_ccc (X Y c : LocalDefId) (hYc : Y ≠ c) (cs : List LocalDefId)
    (s : List (LocalDefId × LocalDefId)) (hout : (Y, X) ∉ s) :
    (Y, X) ∉ build_caller_callee_constraint c cs s := by
  unfold build_caller_callee_constraint
  refine foldl_preserve (fun t : List (LocalDefId × LocalDefId) => (Y, X) ∉ t) _ cs ?_ s hout
  intro t e _ ht
  by_cases hmem : (e, c) ∈ t
  · rwa [if_pos hmem]
  · rw [if_neg hmem]
    intro hcon
    rcases (mem_hsInsert_iff _ _ _).mp hcon with h | h
    · exact ht h
    · exact hYc (congrArg Prod.fst h)

/-- While the inner sibling loop runs for a fixed head `a ≠ Y`, the pair
`(Y, X)` cannot appear: every inserted pair has first component `a`. -/
theorem notYX_preserved_inner (X Y a : LocalDefId) (hYa : Y ≠ a)
    (rest : List LocalDefId) (s : List (LocalDefId × LocalDefId)) (hout : (Y, X) ∉ s) :
    (Y, X) ∉ rest.foldl (fun m b => if (b, a) ∈ m then m else hsInsert (a, b) m) s := by
  refine foldl_preserve (fun t : List (LocalDefId × LocalDefId) => (Y, X) ∉ t) _ rest ?_ s hout
  intro t b _ ht
  by_cases hmem : (b, a) ∈ t
  · rwa [if_pos hmem]
  · rw [if_neg hmem]
    intro hcon
    rcases (mem_hsInsert_iff _ _ _).mp hcon with h | h
    · exact ht h
    · exact hYa (congrArg Prod.fst h)

/-- The inner sibling loop for head `X`, over a suffix containing `Y`,
installs `(X, Y)` and never creates `(Y, X)` (given `X ≠ Y` and that
`(Y, X)` is absent at entry). -/
theorem inner_installs (X Y : LocalDefId) (hXY : X ≠ Y) :
    ∀ (rest : List LocalDefId) (s : List (LocalDefId × LocalDefId)),
      Y ∈ rest → (Y, X) ∉ s →
      (X, Y) ∈ rest.foldl (fun m b => if (b, X) ∈ m then m else hsInsert (X, b) m) s ∧
      (Y, X) ∉ rest.foldl (fun m b => if (b, X) ∈ m then m else hsInsert (X, b) m) s := by
  intro rest
  induction rest with
  | nil => intro s hY _; simp at hY
  | cons b rest ih =>
    intro s hY hout
    rw [List.foldl_cons]
    have hstep : (Y, X) ∉ (if (b, X) ∈ s then s else hsInsert (X, b) s) := by
      by_cases hmem : (b, X) ∈ s
      · rwa [if_pos hmem]
      · rw [if_neg hmem]
        intro hcon
        rcases (mem_hsInsert_iff _ _ _).mp hcon with h | h
        · exact hout h
        · exact hXY (congrArg Prod.fst h).symm
    rcases List.mem_cons.mp hY with rfl | hY'
    · have hstep_in : (X, Y) ∈ (if (Y, X) ∈ s then s else hsInsert (X, Y) s) := by
        rw [if_neg hout]
        exact (mem_hsInsert_iff _ _ _).mpr (Or.inr rfl)
      have key := foldl_preserve
        (fun t : List (LocalDefId × LocalDefId) => (X, Y) ∈ t ∧ (Y, X) ∉ t)
        (fun m b => if (b, X) ∈ m then m else hsInsert (X, b) m) rest ?_ _ ⟨hstep_in, hstep⟩
      · exact key
      · intro t e _ ht
        show (X, Y) ∈ (if (e, X) ∈ t then t else hsInsert (X, e) t) ∧
          (Y, X) ∉ (if (e, X) ∈ t then t else hsInsert (X, e) t)
        by_cases hmem : (e, X) ∈ t
        · rwa [if_pos hmem]
        · rw [if_neg hmem]
          refine ⟨(mem_hsInsert_iff _ _ _).mpr (Or.inl ht.1), ?_⟩
          intro hcon
          rcases (mem_hsInsert_iff _ _ _).mp hcon with h | h
          · exact ht.2 h
          · exact hXY (congrArg Prod.fst h).symm
    · exact ih _ hY' hstep

/-- Processing a callee sequence of the shape `a1 ++ X :: a2 ++ Y :: a3`
(`X` mentioned before `Y`) with the sibling-order builder installs `(X, Y)`
and never `(Y, X)`, provided `X ≠ Y`, `Y ∉ a1` and `(Y, X)` is absent at
entry. -/
theorem mpr_installs (X Y : LocalDefId) (hXY : X ≠ Y) :
    ∀ (a1 : List LocalDefId) (a2 a3 : List LocalDefId)
      (s : List (LocalDefId × LocalDefId)), Y ∉ a1 → (Y, X) ∉ s →
      (X, Y) ∈ build_multiple_precedence_rule (a1 ++ X :: a2 ++ Y :: a3) s ∧
      (Y, X) ∉ build_multiple_precedence_rule (a1 ++ X :: a2 ++ Y :: a3) s := by
  intro a1
  induction a1 with
  | nil =>
    intro a2 a3 s _ hout
    rw [List.nil_append]
    unfold build_multiple_precedence_rule
    have hinner := inner_installs X Y hXY (a2 ++ Y :: a3) s
      (List.mem_append.mpr (Or.inr (List.mem_cons_self _ _))) hout
    exact pairP_preserved_mpr X Y _ _ hinner.1 hinner.2
  | cons a a1 ih =>
    intro a2 a3 s hYa1 hout
    rw [List.cons_append]
    unfold build_multiple_precedence_rule
    have hYa : Y ≠ a := fun h => hYa1 (h ▸ List.mem_cons_self _ _)
    have hstep := notYX_preserved_inner X Y a hYa (a1 ++ X :: a2 ++ Y :: a3) s hout
    exact ih a2 a3 _ (fun h => hYa1 (List.mem_cons_of_mem _ h)) hstep

/-- Counterexample to C2 as stated: in scope `mod5` (three functions
`A = 0`, `B = 1`, `X = 2`), with `Y := A = 0`, caller `A`'s call sequence
is `[2, 0]` (it calls `X` then `Y = A` itself) and caller `B`'s is `[0, 2]`
(`Y` then `X`), yet the final constraint set contains `(Y, X) = (0, 2)` and
not `(X, Y) = (2, 0)`: the caller-before-callee rule already recorded
`(A, X) = (Y, X)` while processing `A`, so `A`'s own sibling pair `(X, Y)`
was discarded, inverting the claimed outcome. -/
theorem c2_counterexample :
    find_caller_body mod5 0 = some [some 2, some 0] ∧
    find_caller_body mod5 1 = some [some 0, some 2] ∧
    collect_callees_in_body (collect_scope mod5 0).2 [some 2, some 0] = [2, 0] ∧
    collect_callees_in_body (collect_scope mod5 0).2 [some 0, some 2] = [0, 2] ∧
    (2, 0) ∉ module_constraints mod5 ∧
    (0, 2) ∈ module_constraints mod5 := by
  decide

/-- C2 (amended): conflict resolution is first-writer-wins and
order-stable, provided the later-mentioned function `Y` is distinct from
the caller `A` itself (the counterexample shows the claim fails when
`Y = A`) and no earlier-processed caller already recorded `(Y, X)`: if
`A`'s call sequence mentions `X` before `Y` (with `X ≠ Y` and `Y` not
mentioned before `X` — automatic for the extractor's duplicate-free
sequences) and the later caller `B`'s sequence mentions `Y` before `X`,
then after processing `A` then `B` the set contains `(X, Y)` and not
`(Y, X)`; consequently, if `X` is declared before `Y`, no violation record
pairs `X` before `Y`. -/
theorem c2 (name : LocalDefId → String) (fns : List (LocalDefId × FnMeta))
    (A B X Y : LocalDefId) (a1 a2 a3 b1 b2 b3 : List LocalDefId)
    (callees_A callees_B : List LocalDefId) (s : List (LocalDefId × LocalDefId))
    (hA : callees_A = a1 ++ X :: a2 ++ Y :: a3)
    (hB : callees_B = b1 ++ Y :: b2 ++ X :: b3)
    (hXY : X ≠ Y) (hYa1 : Y ∉ a1) (hYA : Y ≠ A)
    (hs : (Y, X) ∉ s) :
    ((X, Y) ∈ build_multiple_precedence_rule callees_B
        (build_caller_callee_constraint B callees_B
          (build_multiple_precedence_rule callees_A
            (build_caller_callee_constraint A callees_A s))) ∧
      (Y, X) ∉ build_multiple_precedence_rule callees_B
        (build_caller_callee_constraint B callees_B
          (build_multiple_precedence_rule callees_A
            (build_caller_callee_constraint A callees_A s)))) ∧
    (∀ mX mY : FnMeta, List.lookup X fns = some mX → List.lookup Y fns = some mY →
      mX.position_number < mY.position_number →
      ∀ v ∈ find_violations name
          (build_multiple_precedence_rule callees_B
            (build_caller_callee_constraint B callees_B
              (build_multiple_precedence_rule callees_A
                (build_caller_callee_constraint A callees_A s)))) fns,
        ¬(v.id_first_fn = X ∧ v.idx_second_fn = mY.position_number)) := by
  have h1 : (Y, X) ∉ build_caller_callee_constraint A callees_A s :=
    notYX_preserved_ccc X Y A hYA callees_A s hs
  have h2 : (X, Y) ∈ build_multiple_precedence_rule callees_A
        (build_caller_callee_constraint A callees_A s) ∧
      (Y, X) ∉ build_multiple_precedence_rule callees_A
        (build_caller_callee_constraint A callees_A s) := by
    rw [hA]
    exact mpr_installs X Y hXY a1 a2 a3 _ hYa1 (hA ▸ h1)
  have h3 := pairP_preserved_ccc X Y B callees_B _ h2.1 h2.2
  have h4 := pairP_preserved_mpr X Y callees_B _ h3.1 h3.2
  refine ⟨h4, ?_⟩
  rintro mX mY hmX hmY hlt v hv ⟨hvX, hvS⟩
  obtain ⟨a, b, hab, ma, mb, hma, hmb, hpos, rfl⟩ := mem_find_violations.mp hv
  have haX : a = X := hvX
  rw [haX, hmX] at hma
  have hmaeq : ma = mX := Option.some_injective _ hma.symm
  have hS : mb.position_number = mY.position_number := hvS
  have hfact : mb.position_number < ma.position_number := hpos
  have : ma.position_number = mX.position_number := congrArg FnMeta.position_number hmaeq
  omega

/-- Witness for C2 at the concrete scope `mod4`: `A = 0` calls `X = 2` then
`Y = 3`, `B = 1` calls `Y` then `X`; the final set keeps `(2, 3)`, discards
`(3, 2)`, and with `X` declared before `Y` no violation pairs `X` before
`Y`. -/
theorem c2_witness :
    ((2, 3) ∈ build_multiple_precedence_rule [3, 2]
        (build_caller_callee_constraint 1 [3, 2]
          (build_multiple_precedence_rule [2, 3]
            (build_caller_callee_constraint 0 [2, 3] []))) ∧
      (3, 2) ∉ build_multiple_precedence_rule [3, 2]
        (build_caller_callee_constraint 1 [3, 2]
          (build_multiple_precedence_rule [2, 3]
            (build_caller_callee_constraint 0 [2, 3] [])))) ∧
    (∀ mX mY : FnMeta,
      List.lookup 2 (collect_scope mod4 0).2 = some mX →
      List.lookup 3 (collect_scope mod4 0).2 = some mY →
      mX.position_number < mY.position_number →
      ∀ v ∈ find_violations nm0
          (build_multiple_precedence_rule [3, 2]
            (build_caller_callee_constraint 1 [3, 2]
              (build_multiple_precedence_rule [2, 3]
                (build_caller_callee_constraint 0 [2, 3] []))))
          (collect_scope mod4 0).2,
        ¬(v.id_first_fn = 2 ∧ v.idx_second_fn = mY.position_number)) :=
  c2 nm0 (collect_scope mod4 0).2 0 1 2 3 [] [] [] [] [] [] [2, 3] [3, 2] []
    rfl rfl (by decide) (by decide) (by decide) (by decide)

end NonTopSorted
